import Mathlib

/-!
Verification development for the dnsr iterative caching DNS resolver.

This file shallowly embeds the record model, the record cache
(source file cache.go), the name helpers (parent, label counting,
trailing-label comparison), and the resolution engine entry points
(resolver.go: resolve, iterateParents, exchange, exchangeIP,
resolveCNAMEs, saveDNSRR, cacheGet) as executable Lean functions, and
proves or refutes the stated properties of the specification.

Modelling conventions:
- Go time.Time instants are natural numbers; the zero time value of Go
  (checked with IsZero) is Option.none, a set expiry is Option.some t.
- Go maps are association lists kept duplicate-free by construction;
  map iteration order, which Go leaves unspecified, is the list order.
- Go slices that may be nil are Option (List ..): none is a nil slice,
  some xs a non-nil slice (possibly empty).
- Concurrency is refined away: the parallel nameserver fan-out of
  iterateParents is modelled with arrival order equal to dispatch
  order, and context cancellation events are not modelled; the error
  values Timeout, DeadlineExceeded and Canceled still exist as data
  since callees can return them.
-/

set_option autoImplicit false

namespace Dnsr

/-- Error kinds of the resolver (resolver.go, package level error values
plus RCODE-named errors built with errors.New). -/
inductive Err where
  | nxdomain
  | maxRecursion
  | maxIPs
  | noARecords
  | noResponse
  | timeout
  | deadlineExceeded
  | canceled
  | rcodeErr (s : String)
  | netErr (s : String)
  deriving DecidableEq, Repr

/-- Response codes of a DNS message, as classified by exchangeIP:
NameError (NXDOMAIN), Success, and everything else carried by the
name that dns.RcodeToString gives it. -/
inductive Rcode where
  | success
  | nameError
  | other (s : String)
  deriving DecidableEq, Repr

/-- Resource record (rr.go). The current source revision carries Name,
Type, Value, TTL and Expiry; Expiry is a Go time.Time whose zero value
is modelled as none. Records are value types and are used as map keys,
so equality is structural over all fields. -/
structure RR where
  name : String
  type : String
  value : String
  ttl : Nat
  expiry : Option Nat
  deriving DecidableEq, Repr

/-- RRs represents a slice of DNS resource records (rr.go). -/
abbrev RRs := List RR

/-- Entry of the cache map (cache.go): a Go map from RR to struct\x7b\x7d.
A nil map (none) marks a negative NXDOMAIN entry; a non-nil map is the
set of records cached for the name, kept as a duplicate-free list whose
order stands for the unspecified Go map iteration order. -/
abbrev EntryV := Option (List RR)

/-- Record set held by a cache entry; a nil map holds no records. -/
def recordsOf (e : EntryV) : List RR := e.getD []

/-- Cache (cache.go): capacity, expiry flag and the entries map. The
readers-writer mutex is not modelled; operations are the versions that
run under the lock. -/
structure Cache where
  capacity : Nat
  expire : Bool
  entries : List (String × EntryV)
  deriving DecidableEq

/-- MinCacheCapacity (cache.go). -/
def MinCacheCapacity : Nat := 1000

/-- newCache (cache.go): capacity defaults to MinCacheCapacity if
nonpositive. -/
def newCache (capacity : Int) (expire : Bool) : Cache :=
  { capacity := if capacity ≤ 0 then MinCacheCapacity else capacity.toNat
    expire := expire
    entries := [] }

/-- Lookup of a key in the entries map (the Go map index operation
with its ok flag: none is not-ok). -/
def lookupE (l : List (String × EntryV)) (q : String) : Option EntryV :=
  match l with
  | [] => none
  | (k, e) :: t => if k = q then some e else lookupE t q

/-- Store a value under an existing key of the entries map (the Go map
assignment on a present key; keeps list order). -/
def replaceE (l : List (String × EntryV)) (q : String) (v : EntryV) :
    List (String × EntryV) :=
  l.map fun kv => if kv.1 = q then (q, v) else kv

/-- Test of the eviction sweep in cache.go line 97: the record has a
set expiry that lies strictly before now. -/
def RR.expiredB (now : Nat) (rr : RR) : Bool :=
  match rr.expiry with
  | none => false
  | some t => t < now

/-- Test of cache.get in expiry mode (cache.go line 134): the record
has no expiry or its expiry lies strictly after now. -/
def RR.liveB (now : Nat) (rr : RR) : Bool :=
  match rr.expiry with
  | none => true
  | some t => now < t

/-- Inner loop of the eviction sweep (cache.go lines 95 to 99): drop
every expired record of one entry. -/
def sweepRRs (now : Nat) (s : List RR) : List RR :=
  s.filter fun rr => RR.expiredB now rr = false

/-- Sweep of one entry during eviction: a nil map stays empty and the
entry is dropped (none); a swept-empty entry is dropped as well. -/
def keepEntry (now : Nat) (e : EntryV) : Option EntryV :=
  match e with
  | none => none
  | some s =>
    let s2 := sweepRRs now s
    if s2.length = 0 then none else some (some s2)

/-- Expired-entry sweep of cache._evict (cache.go lines 93 to 108):
walk the entries, drop expired records and emptied entries, and stop
as soon as the map is below capacity. The parameter kept counts the
entries already walked and retained, so that kept plus the remaining
suffix length is the current map size. -/
def evictSweepGo (now cap : Nat) (kept : Nat) :
    List (String × EntryV) → List (String × EntryV)
  | [] => []
  | (k, e) :: rest =>
    match keepEntry now e with
    | none =>
      if kept + rest.length < cap then rest
      else evictSweepGo now cap kept rest
    | some e2 =>
      if kept + 1 + rest.length < cap then (k, e2) :: rest
      else (k, e2) :: evictSweepGo now cap (kept + 1) rest

/-- Random eviction loop of cache._evict (cache.go lines 111 to 116):
delete keys in iteration order until the map is below capacity. -/
def evictRandomGo (cap : Nat) : List (String × EntryV) → List (String × EntryV)
  | [] => []
  | _ :: rest => if rest.length < cap then rest else evictRandomGo cap rest

/-- Second phase of cache._evict: after the optional expiry sweep,
run the random eviction loop only when the map is still at or above
capacity (the sweep returns from inside the function when it gets
below capacity, skipping the loop). -/
def evictPhase2 (cap : Nat) (l1 : List (String × EntryV)) : List (String × EntryV) :=
  if l1.length < cap then l1 else evictRandomGo cap l1

/-- cache._evict (cache.go lines 87 to 117). -/
def Cache.evict (now : Nat) (c : Cache) : Cache :=
  if c.entries.length < c.capacity then c
  else
    { c with
      entries := evictPhase2 c.capacity
        (if c.expire then evictSweepGo now c.capacity 0 c.entries else c.entries) }

/-- cache._add (cache.go lines 61 to 71): on a missing key evict and
create a fresh one-record entry; on a negative entry upgrade it in
place; on a positive entry insert the record into its set. -/
def Cache.addRR (now : Nat) (q : String) (rr : RR) (c : Cache) : Cache :=
  match lookupE c.entries q with
  | none =>
    let c2 := Cache.evict now c
    { c2 with entries := (q, some [rr]) :: c2.entries }
  | some none => { c with entries := replaceE c.entries q (some [rr]) }
  | some (some s) => { c with entries := replaceE c.entries q (some (s.insert rr)) }

/-- cache._addEntry (cache.go lines 75 to 83), reached from addNX: on
a missing key evict and insert a nil (negative) entry; otherwise do
nothing. -/
def Cache.addNX (now : Nat) (q : String) (c : Cache) : Cache :=
  match lookupE c.entries q with
  | none =>
    let c2 := Cache.evict now c
    { c2 with entries := (q, none) :: c2.entries }
  | some _ => c

/-- cache.deleteNX (cache.go lines 52 to 58): remove the entry for q
only when it is present and negative. -/
def Cache.deleteNX (q : String) (c : Cache) : Cache :=
  match lookupE c.entries q with
  | some none => { c with entries := c.entries.filter fun kv => kv.1 ≠ q }
  | _ => c

/-- cache.get (cache.go lines 120 to 148): none is the Go nil slice
(unknown name), some [] the empty non-nil slice (negative entry), and
in expiry mode records that are not live are filtered out. -/
def Cache.get (now : Nat) (c : Cache) (qname : String) : Option RRs :=
  match lookupE c.entries qname with
  | none => none
  | some e =>
    let s := recordsOf e
    if s.length = 0 then some []
    else if c.expire then some (s.filter fun rr => RR.liveB now rr = true)
    else some s

/-- Writes that drive the cache in the capacity claims: cache.add and
cache.addNX, each tagged with the instant at which it runs (the
time.Now() that _evict would observe). -/
inductive CacheOp where
  | add (now : Nat) (q : String) (rr : RR)
  | addNX (now : Nat) (q : String)
  deriving DecidableEq, Repr

/-- Apply one write to the cache (cache.add and cache.addNX with the
mutex elided). -/
def applyOp (c : Cache) (op : CacheOp) : Cache :=
  match op with
  | .add now q rr => Cache.addRR now q rr c
  | .addNX now q => Cache.addNX now q c

end Dnsr

namespace Dnsr

/-- Split a character list at every dot, keeping empty pieces (the
behavior of splitting a textual domain name at its label separators). -/
def splitDots : List Char → List (List Char)
  | [] => [[]]
  | c :: cs =>
    let r := splitDots cs
    if c = '.' then [] :: r
    else
      match r with
      | [] => [[c]]
      | h :: t => (c :: h) :: t

/-- Labels of a textual domain name, dropping empty pieces, so that a
fully qualified name and its undotted form have the same labels and
the root name has none (the label model behind dns.SplitDomainName
and dns.CountLabel; escaped dots are out of scope). -/
def labels (s : String) : List String :=
  ((splitDots s.data).filter fun l => l ≠ []).map fun l => String.mk l

/-- dns.CountLabel: number of labels of a name; the root has zero. -/
def countLabel (s : String) : Nat := (labels s).length

/-- Lowercase every character of a string (strings.ToLower restricted
to the ASCII names the resolver handles). -/
def lowerStr (s : String) : String := String.mk (s.data.map Char.toLower)

/-- toLowerFQDN (dnsr.go): lowercase and append a trailing dot when
absent (dns.Fqdn composed with strings.ToLower). -/
def toLowerFQDN (s : String) : String :=
  let t := lowerStr s
  if t.data.getLast? = some '.' then t else t ++ "."

/-- Length of the common prefix of two label lists. -/
def commonPrefLen : List String → List String → Nat
  | a :: as, b :: bs => if a = b then commonPrefLen as bs + 1 else 0
  | _, _ => 0

/-- dns.CompareDomainName: how many labels two names share, counted
from the right, comparing labels case-insensitively. -/
def compareDomainName (s1 s2 : String) : Nat :=
  commonPrefLen (((labels s1).map lowerStr).reverse) (((labels s2).map lowerStr).reverse)

/-- parent (dnsr.go): strip the leftmost label and return the rest as
a lowercase FQDN; the root has no parent. -/
def parentName (name : String) : Option String :=
  match labels name with
  | [] => none
  | _ :: rest => some (toLowerFQDN (String.intercalate "." rest))

/-- Successive values of pname in the parent walk of iterateParents,
starting at qname; the fuel argument exceeds the label count, so the
recursion always reaches the root, exactly as the Go loop does. -/
def parentChainAux : Nat → String → List String
  | 0, _ => []
  | fuel + 1, name =>
    name ::
      match parentName name with
      | none => []
      | some p => parentChainAux fuel p

/-- Parent chain of a query name as walked by iterateParents. -/
def parentChain (name : String) : List String :=
  parentChainAux (countLabel name + 1) name

end Dnsr

namespace Dnsr

/-- Configuration defaults of the resolution engine (resolver.go lines
14 to 20); the package variables are modelled at their defaults. -/
def MaxRecursion : Nat := 10

/-- Parallel fan-out bound to authoritative servers per step. -/
def MaxNameservers : Nat := 2

/-- Bound on the A record addresses tried per nameserver hostname. -/
def MaxIPs : Nat := 2

/-- Wire-format resource record handed to convertRR: the cases of the
miekg dns record types the resolver recognizes, each with the owner
name, the fields that reach the normalized value, and the TTL of the
header; the fallback case carries the whitespace fields of the zone
file string form. -/
inductive WireRR where
  | soa (name mname : String) (ttl : Nat)
  | ns (name target : String) (ttl : Nat)
  | cname (name target : String) (ttl : Nat)
  | a (name ip : String) (ttl : Nat)
  | aaaa (name ip : String) (ttl : Nat)
  | txt (name : String) (txts : List String) (ttl : Nat)
  | unknown (fields : List String) (ttl : Nat)
  deriving DecidableEq, Repr

/-- Modelled from the spec: the current revision of convertRR is not
in the sources (only earlier revisions without the expire flag are),
so its record conversion follows the specification: map the known
types to the normalized form with lowercased owner and target names,
optionally synthesize unknown types from the whitespace fields of the
zone file string form (owner, ttl, class, type, rdata), and populate
ttl and expiry only when the cache is TTL aware. -/
def convertRR (now : Nat) (expire : Bool) (w : WireRR) : Option RR :=
  let stamp : Nat → Option Nat := fun ttl => if expire then some (now + ttl) else none
  let dur : Nat → Nat := fun ttl => if expire then ttl else 0
  match w with
  | .soa name mname ttl => some ⟨toLowerFQDN name, "SOA", toLowerFQDN mname, dur ttl, stamp ttl⟩
  | .ns name target ttl => some ⟨toLowerFQDN name, "NS", toLowerFQDN target, dur ttl, stamp ttl⟩
  | .cname name target ttl => some ⟨toLowerFQDN name, "CNAME", toLowerFQDN target, dur ttl, stamp ttl⟩
  | .a name ip ttl => some ⟨toLowerFQDN name, "A", ip, dur ttl, stamp ttl⟩
  | .aaaa name ip ttl => some ⟨toLowerFQDN name, "AAAA", ip, dur ttl, stamp ttl⟩
  | .txt name txts ttl => some ⟨toLowerFQDN name, "TXT", String.intercalate "\t" txts, dur ttl, stamp ttl⟩
  | .unknown fields ttl =>
    match fields with
    | f0 :: _ :: _ :: f3 :: rdata =>
      some ⟨toLowerFQDN f0, f3, String.intercalate "\t" rdata, dur ttl, stamp ttl⟩
    | _ => none

/-- Resolver.cacheGet (resolver.go lines 464 to 490) with the context
check elided: consult the local cache, fall through to the root cache
on an unknown name, report NXDOMAIN on an empty entry, and filter the
records by qtype, where an empty filter result for a specific type
other than NS degrades to unknown. The pair mirrors the Go return
values (records, error) with none as the nil slice. -/
def cacheGetR (now : Nat) (c root : Cache) (qname qtype : String) :
    Option RRs × Option Err :=
  let any0 := Cache.get now c qname
  let any := match any0 with
    | none => Cache.get now root qname
    | some v => some v
  match any with
  | none => (none, none)
  | some l =>
    if l.length = 0 then (none, some .nxdomain)
    else
      let rrs := l.filter fun rr => qtype = "" || rr.type = qtype
      if rrs.length = 0 ∧ qtype ≠ "" ∧ qtype ≠ "NS" then (none, none)
      else (some rrs, none)

/-- RCODE classification of a received response (resolver.go lines 372
to 393): on NameError, when the question was NS and some authority
record converts to an SOA, fall through without touching the cache;
otherwise record a negative entry for qname and return nil records and
NXDOMAIN. On any other nonzero RCODE return the RCODE-named error.
The first component is none when execution falls through to the
record-saving step, and some of the returned pair otherwise. -/
def rcodeCheck (now : Nat) (expire : Bool) (qname qtype : String)
    (rcode : Rcode) (authority : List WireRR) (c : Cache) :
    Option (Option RRs × Option Err) × Cache :=
  match rcode with
  | .nameError =>
    let hasSOA := qtype = "NS" &&
      authority.any fun drr =>
        match convertRR now expire drr with
        | some rr => rr.type = "SOA"
        | none => false
    if hasSOA then (none, c)
    else (some (none, some .nxdomain), Cache.addNX now qname c)
  | .success => (none, c)
  | .other s => (some (none, some (.rcodeErr s)), c)

/-- Resolver.saveDNSRR (resolver.go lines 442 to 461): convert each
wire record, drop records whose owner has fewer labels than qname and
shares fewer than two trailing labels with it, insert the survivors
into the cache under their own owner names, and accumulate those whose
owner is qname as the direct result set. -/
def saveDNSRR (now : Nat) (expire : Bool) (host qname : String)
    (drrs : List WireRR) (c : Cache) : RRs × Cache :=
  match drrs with
  | [] => ([], c)
  | drr :: rest =>
    match convertRR now expire drr with
    | none => saveDNSRR now expire host qname rest c
    | some rr =>
      if countLabel rr.name < countLabel qname ∧ compareDomainName qname rr.name < 2 then
        saveDNSRR now expire host qname rest c
      else
        let c2 := Cache.addRR now rr.name rr c
        let res := saveDNSRR now expire host qname rest c2
        (if rr.name = qname then rr :: res.1 else res.1, res.2)

/-- Spec-worded ancestor relation, used to compare the bailiwick claim
against the code: a name is an ancestor of qname when its labels are a
trailing segment of the labels of qname (a proper ancestor or the name
itself). -/
def specAncestor (anc q : String) : Bool :=
  ((labels anc).reverse).isPrefixOf ((labels q).reverse)

/-- Inner loop of resolveCNAMEs (resolver.go lines 433 to 436): for
each record that the recursive resolution of the CNAME target
returned, add it to the cache under qname, and append crr (the CNAME
record itself, exactly as the source does) to the emitted list. -/
def cnameInner (now : Nat) (qname : String) (crr : RR) (resolved : RRs)
    (c : Cache) : RRs × Cache :=
  match resolved with
  | [] => ([], c)
  | rr :: rest =>
    let c2 := Cache.addRR now qname rr c
    let (l, c3) := cnameInner now qname crr rest c2
    (crr :: l, c3)

/-- Resolver.resolveCNAMEs (resolver.go lines 424 to 439) with the
recursive resolve call supplied as an oracle: emit every direct
record; for each CNAME owned by qname, resolve its target (ignoring
the error) and run the inner loop above. The Go function always
returns a nil error. -/
def resolveCNAMEsGen (resolveFn : String → String → Cache → RRs × Cache)
    (now : Nat) (qname qtype : String) (crrs : RRs) (c : Cache) : RRs × Cache :=
  match crrs with
  | [] => ([], c)
  | crr :: rest =>
    if crr.type ≠ "CNAME" ∨ crr.name ≠ qname then
      let (l, c2) := resolveCNAMEsGen resolveFn now qname qtype rest c
      (crr :: l, c2)
    else
      let (resolved, c2) := resolveFn crr.value qtype c
      let (emitted, c3) := cnameInner now qname crr resolved c2
      let (l, c4) := resolveCNAMEsGen resolveFn now qname qtype rest c3
      (crr :: (emitted ++ l), c4)

end Dnsr

namespace Dnsr

theorem length_replaceE (l : List (String × EntryV)) (q : String) (v : EntryV) :
    (replaceE l q v).length = l.length := by
  simp [replaceE]

theorem evictRandomGo_spec (cap : Nat) (l : List (String × EntryV)) :
    (evictRandomGo cap l).length < cap ∨ evictRandomGo cap l = [] := by
  induction l with
  | nil => exact Or.inr rfl
  | cons kv rest ih =>
    by_cases h : rest.length < cap
    · exact Or.inl (by rw [evictRandomGo, if_pos h]; exact h)
    · rw [evictRandomGo, if_neg h]
      exact ih

theorem evictPhase2_lt (cap : Nat) (l1 : List (String × EntryV)) (h : 1 ≤ cap) :
    (evictPhase2 cap l1).length < cap := by
  unfold evictPhase2
  split
  · next h2 => exact h2
  · next h2 =>
    rcases evictRandomGo_spec cap l1 with h3 | h3
    · exact h3
    · rw [h3]
      simpa using h

theorem evict_entries_lt (now : Nat) (c : Cache) (h : 1 ≤ c.capacity) :
    ((Cache.evict now c).entries).length < c.capacity := by
  unfold Cache.evict
  split
  · next h1 => exact h1
  · exact evictPhase2_lt c.capacity _ h

theorem evict_capacity (now : Nat) (c : Cache) :
    (Cache.evict now c).capacity = c.capacity := by
  unfold Cache.evict
  split <;> rfl

theorem applyOp_capacity (c : Cache) (op : CacheOp) :
    (applyOp c op).capacity = c.capacity := by
  cases op with
  | add now q rr =>
    dsimp [applyOp, Cache.addRR]
    rcases hl : lookupE c.entries q with _ | e
    · simp only [hl, evict_capacity]
    · rcases e with _ | s <;> simp [hl]
  | addNX now q =>
    dsimp [applyOp, Cache.addNX]
    rcases hl : lookupE c.entries q with _ | e
    · simp only [hl, evict_capacity]
    · simp [hl]

theorem applyOp_entries_le (c : Cache) (op : CacheOp) (h1 : 1 ≤ c.capacity)
    (h2 : c.entries.length ≤ c.capacity) :
    ((applyOp c op).entries).length ≤ c.capacity := by
  cases op with
  | add now q rr =>
    dsimp [applyOp, Cache.addRR]
    rcases hl : lookupE c.entries q with _ | e
    · simp only [hl]
      have := evict_entries_lt now c h1
      simpa using this
    · rcases e with _ | s <;> simp [hl, length_replaceE, h2]
  | addNX now q =>
    dsimp [applyOp, Cache.addNX]
    rcases hl : lookupE c.entries q with _ | e
    · simp only [hl]
      have := evict_entries_lt now c h1
      simpa using this
    · simp [hl, h2]

theorem foldl_applyOp_inv (ops : List CacheOp) (c : Cache) (h1 : 1 ≤ c.capacity)
    (h2 : c.entries.length ≤ c.capacity) :
    (ops.foldl applyOp c).capacity = c.capacity ∧
      ((ops.foldl applyOp c).entries).length ≤ c.capacity := by
  induction ops generalizing c with
  | nil => exact ⟨rfl, h2⟩
  | cons op rest ih =>
    have hcap := applyOp_capacity c op
    have hlen := applyOp_entries_le c op h1 h2
    have := ih (applyOp c op) (hcap ▸ h1) (hcap ▸ hlen)
    simpa [List.foldl_cons, hcap] using this

theorem one_le_newCache_capacity (cap : Int) (exp : Bool) :
    1 ≤ (newCache cap exp).capacity := by
  dsimp [newCache]
  split
  · decide
  · next h => omega

/-- C1: for every constructed cache (capacity at least one after
construction) and every finite sequence of add and addNX writes, the
entries map never holds more than capacity keys; the sequence ranges
over all finite prefixes, so the bound holds at every moment after any
write. -/
theorem c1_cache_capacity_bound (cap : Int) (exp : Bool) (ops : List CacheOp) :
    ((ops.foldl applyOp (newCache cap exp)).entries).length ≤ (newCache cap exp).capacity := by
  exact (foldl_applyOp_inv ops (newCache cap exp) (one_le_newCache_capacity cap exp)
    (by simp [newCache])).2

/-- C9 counterexample: a freshly constructed cache of capacity one
holds exactly one key right after a single addNX write, so the key
count is not strictly below the capacity. -/
theorem c9_counterexample :
    ¬ (((applyOp (newCache 1 false) (CacheOp.addNX 0 "a.")).entries).length
      < (newCache 1 false).capacity) := by
  decide

/-- C9 amended: immediately after any write the number of keys in the
entries map is at most the capacity (not strictly below it); eviction
only guarantees strict inequality before the new key is inserted. -/
theorem c9_amended_after_write_le (cap : Int) (exp : Bool) (ops : List CacheOp)
    (op : CacheOp) :
    ((applyOp ((ops).foldl applyOp (newCache cap exp)) op).entries).length
      ≤ (newCache cap exp).capacity := by
  have h := foldl_applyOp_inv ops (newCache cap exp) (one_le_newCache_capacity cap exp)
    (by simp [newCache])
  have := applyOp_entries_le ((ops).foldl applyOp (newCache cap exp)) op
    (h.1 ▸ one_le_newCache_capacity cap exp) (by rw [h.1]; exact h.2)
  rwa [h.1] at this

end Dnsr


namespace Dnsr

@[simp]
theorem lookupE_cons (k : String) (e : EntryV) (t : List (String × EntryV)) (q : String) :
    lookupE ((k, e) :: t) q = if k = q then some e else lookupE t q := rfl

theorem lookupE_replaceE_self {l : List (String × EntryV)} {q : String} {e : EntryV}
    (v : EntryV) (h : lookupE l q = some e) :
    lookupE (replaceE l q v) q = some v := by
  induction l with
  | nil => simp [lookupE] at h
  | cons kv t ih =>
    rcases kv with ⟨k, ev⟩
    rw [lookupE_cons] at h
    by_cases hk : k = q
    · subst hk
      simp [replaceE]
    · rw [if_neg hk] at h
      have ihv := ih h
      simp only [replaceE, List.map_cons] at ihv ⊢
      simp only [if_neg hk]
      rw [lookupE_cons, if_neg hk]
      exact ihv

theorem lookupE_mem {l : List (String × EntryV)} {q : String} {e : EntryV}
    (h : lookupE l q = some e) : (q, e) ∈ l := by
  induction l with
  | nil => simp [lookupE] at h
  | cons kv t ih =>
    rcases kv with ⟨k, ev⟩
    rw [lookupE_cons] at h
    by_cases hk : k = q
    · rw [if_pos hk] at h
      subst hk
      simp at h
      simp [h]
    · rw [if_neg hk] at h
      exact List.mem_cons_of_mem _ (ih h)

/-- Entries surviving the expiry sweep come from original entries, as
is or with their record list filtered by the sweep. -/
theorem evictSweepGo_mem (now cap : Nat) :
    ∀ (kept : Nat) (l : List (String × EntryV)) (kv : String × EntryV),
      kv ∈ evictSweepGo now cap kept l →
      ∃ e0, (kv.1, e0) ∈ l ∧
        (kv.2 = e0 ∨ ∃ l0, e0 = some l0 ∧ kv.2 = some (sweepRRs now l0)) := by
  intro kept l
  induction l generalizing kept with
  | nil => intro kv h; simp [evictSweepGo] at h
  | cons hd rest ih =>
    intro kv h
    rcases hd with ⟨k, e⟩
    rw [evictSweepGo] at h
    split at h
    · -- keepEntry now e = none
      split at h
      · exact ⟨kv.2, List.mem_cons_of_mem _ h, Or.inl rfl⟩
      · obtain ⟨e0, hm, hrel⟩ := ih kept kv h
        exact ⟨e0, List.mem_cons_of_mem _ hm, hrel⟩
    · -- keepEntry now e = some e2
      next e2 hke =>
      have he2 : ∃ l0, e = some l0 ∧ e2 = some (sweepRRs now l0) := by
        dsimp [keepEntry] at hke
        rcases e with _ | s
        · simp at hke
        · dsimp at hke
          split at hke
          · simp at hke
          · exact ⟨s, rfl, by simpa using hke.symm⟩
      obtain ⟨l0, he, h2⟩ := he2
      have hhead : kv = (k, e2) →
          ∃ e0, (kv.1, e0) ∈ (k, e) :: rest ∧
            (kv.2 = e0 ∨ ∃ l1, e0 = some l1 ∧ kv.2 = some (sweepRRs now l1)) := by
        intro h1
        refine ⟨e, by simp [h1], Or.inr ⟨l0, he, ?_⟩⟩
        rw [h1, h2]
      split at h
      · rcases List.mem_cons.mp h with h1 | h1
        · exact hhead h1
        · exact ⟨kv.2, List.mem_cons_of_mem _ h1, Or.inl rfl⟩
      · rcases List.mem_cons.mp h with h1 | h1
        · exact hhead h1
        · obtain ⟨e0, hm, hrel⟩ := ih (kept + 1) kv h1
          exact ⟨e0, List.mem_cons_of_mem _ hm, hrel⟩

theorem evictRandomGo_mem (cap : Nat) :
    ∀ (l : List (String × EntryV)) (kv : String × EntryV),
      kv ∈ evictRandomGo cap l → kv ∈ l := by
  intro l
  induction l with
  | nil => intro kv h; simp [evictRandomGo] at h
  | cons hd rest ih =>
    intro kv h
    rw [evictRandomGo] at h
    split at h
    · exact List.mem_cons_of_mem _ h
    · exact List.mem_cons_of_mem _ (ih kv h)

theorem evictPhase2_mem (cap : Nat) (l : List (String × EntryV)) (kv : String × EntryV)
    (h : kv ∈ evictPhase2 cap l) : kv ∈ l := by
  unfold evictPhase2 at h
  split at h
  · exact h
  · exact evictRandomGo_mem cap l kv h

/-- Entries surviving a full eviction come from original entries, as
is or with their record list filtered by the expiry sweep. -/
theorem evict_mem (now : Nat) (c : Cache) (kv : String × EntryV)
    (h : kv ∈ (Cache.evict now c).entries) :
    ∃ e0, (kv.1, e0) ∈ c.entries ∧
      (kv.2 = e0 ∨ ∃ l0, e0 = some l0 ∧ kv.2 = some (sweepRRs now l0)) := by
  unfold Cache.evict at h
  split at h
  · exact ⟨kv.2, h, Or.inl rfl⟩
  · dsimp only at h
    have hL := evictPhase2_mem _ _ _ h
    split at hL
    · exact evictSweepGo_mem now c.capacity 0 c.entries kv hL
    · exact ⟨kv.2, hL, Or.inl rfl⟩

end Dnsr

namespace Dnsr

theorem addRR_expire (now : Nat) (q : String) (rr : RR) (c : Cache) :
    (Cache.addRR now q rr c).expire = c.expire := by
  have hc : (Cache.evict now c).expire = c.expire := by
    unfold Cache.evict
    split <;> rfl
  dsimp [Cache.addRR]
  rcases hl : lookupE c.entries q with _ | e
  · simp only [hc]
  · rcases e with _ | s <;> simp

theorem addNX_expire (now : Nat) (q : String) (c : Cache) :
    (Cache.addNX now q c).expire = c.expire := by
  have hc : (Cache.evict now c).expire = c.expire := by
    unfold Cache.evict
    split <;> rfl
  dsimp [Cache.addNX]
  rcases hl : lookupE c.entries q with _ | e
  · simp only [hc]
  · simp

theorem expiredB_none (now : Nat) (rr : RR) (h : rr.expiry = none) :
    RR.expiredB now rr = false := by
  unfold RR.expiredB
  rw [h]

theorem expiredB_some (now t : Nat) (rr : RR) (h : rr.expiry = some t) :
    RR.expiredB now rr = decide (t < now) := by
  unfold RR.expiredB
  rw [h]

theorem liveB_none (now : Nat) (rr : RR) (h : rr.expiry = none) :
    RR.liveB now rr = true := by
  unfold RR.liveB
  rw [h]

theorem liveB_some (now t : Nat) (rr : RR) (h : rr.expiry = some t) :
    RR.liveB now rr = decide (now < t) := by
  unfold RR.liveB
  rw [h]

theorem liveB_of_not_expired (now : Nat) (rr : RR) (h : RR.expiredB now rr = true) :
    RR.liveB now rr = false := by
  rcases h2 : rr.expiry with _ | t
  · rw [expiredB_none now rr h2] at h
    exact absurd h (by simp)
  · rw [expiredB_some now t rr h2] at h
    rw [liveB_some now t rr h2]
    simp only [decide_eq_true_eq] at h
    simp only [decide_eq_false_iff_not]
    omega

theorem expiredB_of_live (now : Nat) (rr : RR) (h : RR.liveB now rr = true) :
    RR.expiredB now rr = false := by
  rcases h2 : rr.expiry with _ | t
  · exact expiredB_none now rr h2
  · rw [liveB_some now t rr h2] at h
    rw [expiredB_some now t rr h2]
    simp only [decide_eq_true_eq] at h
    simp only [decide_eq_false_iff_not]
    omega

/-- Duplicate-freeness of entry record lists survives eviction. -/
theorem wf_evict (now : Nat) (c : Cache)
    (hWF : ∀ k l, (k, some l) ∈ c.entries → l.Nodup) :
    ∀ k l, (k, some l) ∈ (Cache.evict now c).entries → l.Nodup := by
  intro k l hm
  obtain ⟨e0, hm0, hrel⟩ := evict_mem now c (k, some l) hm
  rcases hrel with h2 | ⟨l0, he0, h2⟩
  · exact hWF k l (by rw [← h2] at hm0; exact hm0)
  · have hls : l = sweepRRs now l0 := by simpa using h2
    rw [hls]
    exact (hWF k l0 (he0 ▸ hm0)).filter _

/-- Duplicate-freeness of entry record lists survives addNX. -/
theorem wf_addNX (now : Nat) (q : String) (c : Cache)
    (hWF : ∀ k l, (k, some l) ∈ c.entries → l.Nodup) :
    ∀ k l, (k, some l) ∈ (Cache.addNX now q c).entries → l.Nodup := by
  intro k l hm
  dsimp [Cache.addNX] at hm
  rcases hl : lookupE c.entries q with _ | e
  · rw [hl] at hm
    rcases List.mem_cons.mp hm with h1 | h1
    · exact absurd h1 (by simp)
    · exact wf_evict now c hWF k l h1
  · rw [hl] at hm
    exact hWF k l hm

/-- C7 counterexample: in an expiry-enabled cache, addNX followed by
add of a record whose expiry lies in the past gives a get that filters
the record out, so get does not contain the record exactly once (the
behavior the test TestExpiredCacheEntry pins down). -/
theorem c7_counterexample :
    ¬ (((Cache.get 10
        (Cache.addRR 0 "expired." ⟨"expired.", "A", "1.2.3.4", 0, some 5⟩
          (Cache.addNX 0 "expired." (newCache 100 true))) "expired.").getD []).count
            ⟨"expired.", "A", "1.2.3.4", 0, some 5⟩ = 1) := by
  decide

/-- C7 amended: addNX on X followed by add of record R under X leaves
a positive entry for X whose get contains R exactly once, provided the
entry record lists of the starting cache are duplicate-free (Go map
derived sets always are) and, when the cache is in expiry mode, R is
not yet expired at the time of the get; repeating the add leaves the
entry for X unchanged, because insertion into the record set is
idempotent over structural record equality. -/
theorem c7_amended_nx_upgrade (c : Cache) (now0 now1 now2 now3 : Nat) (X : String) (R : RR)
    (hWF : ∀ k l, (k, some l) ∈ c.entries → l.Nodup)
    (hLive : c.expire = false ∨ RR.liveB now2 R = true) :
    ((Cache.get now2 (Cache.addRR now1 X R (Cache.addNX now0 X c)) X).getD []).count R = 1 ∧
      lookupE ((Cache.addRR now3 X R (Cache.addRR now1 X R (Cache.addNX now0 X c))).entries) X
        = lookupE ((Cache.addRR now1 X R (Cache.addNX now0 X c)).entries) X := by
  set c0 := Cache.addNX now0 X c with hc0
  have hWF0 : ∀ k l, (k, some l) ∈ c0.entries → l.Nodup := wf_addNX now0 X c hWF
  obtain ⟨e0, he0⟩ : ∃ e, lookupE c0.entries X = some e := by
    rw [hc0]
    dsimp [Cache.addNX]
    rcases hl : lookupE c.entries X with _ | e
    · refine ⟨none, ?_⟩
      show lookupE ((X, none) :: (Cache.evict now0 c).entries) X = some none
      simp
    · exact ⟨e, hl⟩
  set c1 := Cache.addRR now1 X R c0 with hc1
  obtain ⟨L, hL, hRL, hNodup⟩ :
      ∃ L, lookupE c1.entries X = some (some L) ∧ R ∈ L ∧ L.Nodup := by
    rw [hc1]
    dsimp [Cache.addRR]
    rcases e0 with _ | s
    · rw [he0]
      exact ⟨[R], lookupE_replaceE_self _ he0, by simp, by simp⟩
    · rw [he0]
      exact ⟨s.insert R, lookupE_replaceE_self _ he0, List.mem_insert_self R s,
        (hWF0 X s (lookupE_mem he0)).insert⟩
  have hexp1 : c1.expire = c.expire := by
    rw [hc1, hc0, addRR_expire, addNX_expire]
  constructor
  · -- get contains R exactly once
    unfold Cache.get
    rw [hL]
    dsimp [recordsOf]
    have hlen : ¬ L.length = 0 := by
      intro h0
      rw [List.length_eq_zero] at h0
      rw [h0] at hRL
      simp at hRL
    rw [if_neg hlen]
    by_cases hex : c1.expire = true
    · rw [if_pos hex]
      have hlive : RR.liveB now2 R = true := by
        rcases hLive with h | h
        · rw [hexp1] at hex
          rw [h] at hex
          simp at hex
        · exact h
      have hmemf : R ∈ L.filter fun rr => RR.liveB now2 rr = true :=
        List.mem_filter.mpr ⟨hRL, by simp [hlive]⟩
      simpa using List.count_eq_one_of_mem (hNodup.filter _) hmemf
    · rw [if_neg hex]
      simpa using List.count_eq_one_of_mem hNodup hRL
  · -- repeating the add leaves the entry unchanged
    dsimp [Cache.addRR]
    rw [hL]
    show lookupE (replaceE c1.entries X (some (L.insert R))) X = some (some L)
    rw [List.insert_of_mem hRL]
    exact lookupE_replaceE_self _ hL

/-- C7 witness at the concrete input of the test TestCache. -/
theorem c7_amended_witness :
    ((Cache.get 0 (Cache.addRR 0 "hello." ⟨"hello.", "A", "1.2.3.4", 0, none⟩
        (Cache.addNX 0 "hello." (newCache 100 false))) "hello.").getD []).count
          ⟨"hello.", "A", "1.2.3.4", 0, none⟩ = 1 ∧
      lookupE ((Cache.addRR 0 "hello." ⟨"hello.", "A", "1.2.3.4", 0, none⟩
        (Cache.addRR 0 "hello." ⟨"hello.", "A", "1.2.3.4", 0, none⟩
          (Cache.addNX 0 "hello." (newCache 100 false)))).entries) "hello."
        = lookupE ((Cache.addRR 0 "hello." ⟨"hello.", "A", "1.2.3.4", 0, none⟩
            (Cache.addNX 0 "hello." (newCache 100 false))).entries) "hello." :=
  c7_amended_nx_upgrade (newCache 100 false) 0 0 0 0 "hello."
    ⟨"hello.", "A", "1.2.3.4", 0, none⟩ (by simp [newCache]) (Or.inl rfl)

/-- C8: when expiry mode is on, get never returns a record whose
expiry is set and lies in the past, and every such record is removed
from its entry by the eviction sweep (it is eligible for eviction). -/
theorem c8_expired_never_returned :
    (∀ (now : Nat) (c : Cache) (q : String) (rr : RR),
        c.expire = true → rr ∈ (Cache.get now c q).getD [] →
          RR.expiredB now rr = false) ∧
      ∀ (now : Nat) (s : List RR) (rr : RR),
        RR.expiredB now rr = true → rr ∉ sweepRRs now s := by
  constructor
  · intro now c q rr hexp hmem
    unfold Cache.get at hmem
    rcases hl : lookupE c.entries q with _ | e
    · rw [hl] at hmem
      simp at hmem
    · rw [hl] at hmem
      dsimp at hmem
      by_cases hlen : (recordsOf e).length = 0
      · rw [if_pos hlen] at hmem
        simp at hmem
      · rw [if_neg hlen, hexp, if_pos rfl] at hmem
        simp only [Option.getD_some] at hmem
        have hlive := (List.mem_filter.mp hmem).2
        simp only [decide_eq_true_eq] at hlive
        exact expiredB_of_live now rr hlive
  · intro now s rr hexp hmem
    have := (List.mem_filter.mp hmem).2
    simp [hexp] at this

/-- C8 witness: a live record is returned by get and is reported not
expired; an expired record is absent from the sweep of its own entry. -/
theorem c8_witness :
    RR.expiredB 10 ⟨"alive.", "A", "1.2.3.4", 0, some 20⟩ = false ∧
      (⟨"gone.", "A", "1.2.3.4", 0, some 5⟩ : RR) ∉
        sweepRRs 10 [⟨"gone.", "A", "1.2.3.4", 0, some 5⟩] :=
  ⟨c8_expired_never_returned.1 10
      ⟨100, true, [("alive.", some [⟨"alive.", "A", "1.2.3.4", 0, some 20⟩])]⟩
      "alive." ⟨"alive.", "A", "1.2.3.4", 0, some 20⟩ rfl (by decide),
    c8_expired_never_returned.2 10 [⟨"gone.", "A", "1.2.3.4", 0, some 5⟩]
      ⟨"gone.", "A", "1.2.3.4", 0, some 5⟩ (by decide)⟩

/-- C10: in expiry mode, a positive entry all of whose records are
expired makes get return the empty non-nil slice, the same shape as
the negative NXDOMAIN sentinel, so the resolver cacheGet reports
NXDOMAIN for the name even though it was never negatively cached. -/
theorem c10_fully_expired_entry_reports_nxdomain (now : Nat) (c root : Cache)
    (q qtype : String) (s : List RR)
    (hexp : c.expire = true)
    (hl : lookupE c.entries q = some (some s))
    (hne : s ≠ [])
    (hall : ∀ rr ∈ s, RR.expiredB now rr = true) :
    Cache.get now c q = some [] ∧
      cacheGetR now c root q qtype = (none, some Err.nxdomain) := by
  have hget : Cache.get now c q = some [] := by
    unfold Cache.get
    rw [hl]
    dsimp [recordsOf]
    rw [if_neg (by simpa using hne)]
    rw [hexp, if_pos rfl]
    congr 1
    rw [List.filter_eq_nil_iff]
    intro rr hrr
    simp only [decide_eq_true_eq]
    intro hlv
    have hfalse := expiredB_of_live now rr hlv
    rw [hall rr hrr] at hfalse
    cases hfalse
  refine ⟨hget, ?_⟩
  unfold cacheGetR
  rw [hget]
  rfl

/-- C10 witness at a concrete fully expired entry. -/
theorem c10_witness :
    Cache.get 10 ⟨100, true, [("gone.", some [⟨"gone.", "A", "1.2.3.4", 0, some 5⟩])]⟩
        "gone." = some [] ∧
      cacheGetR 10 ⟨100, true, [("gone.", some [⟨"gone.", "A", "1.2.3.4", 0, some 5⟩])]⟩
        (newCache 0 false) "gone." "A" = (none, some Err.nxdomain) :=
  c10_fully_expired_entry_reports_nxdomain 10
    ⟨100, true, [("gone.", some [⟨"gone.", "A", "1.2.3.4", 0, some 5⟩])]⟩
    (newCache 0 false) "gone." "A" [⟨"gone.", "A", "1.2.3.4", 0, some 5⟩]
    rfl (by decide) (by decide) (by decide)

end Dnsr

namespace Dnsr

/-- Entry membership version of evict_mem, with the pair components
spelled out. -/
theorem evict_mem2 (now : Nat) (c : Cache) (k : String) (e : EntryV)
    (h : (k, e) ∈ (Cache.evict now c).entries) :
    ∃ e0, (k, e0) ∈ c.entries ∧
      (e = e0 ∨ ∃ l0, e0 = some l0 ∧ e = some (sweepRRs now l0)) := by
  simpa using evict_mem now c (k, e) h

/-- A record rr is stored in the cache under the given name. -/
def recordsUnder (c : Cache) (name : String) (rr : RR) : Prop :=
  ∃ e, (name, e) ∈ c.entries ∧ rr ∈ recordsOf e

/-- A cache write under a different key never makes a new record
appear under the given name (eviction can only remove records). -/
theorem addRR_recordsUnder (now : Nat) (q : String) (rr0 : RR) (c : Cache)
    (name : String) (hq : q ≠ name) (rr : RR)
    (h : recordsUnder (Cache.addRR now q rr0 c) name rr) :
    recordsUnder c name rr := by
  obtain ⟨e, hm, hrr⟩ := h
  rw [Cache.addRR.eq_def] at hm
  have hrepl : ∀ v : EntryV, (name, e) ∈ replaceE c.entries q v → (name, e) ∈ c.entries := by
    intro v hmem
    obtain ⟨kv0, hkv0, hfe⟩ := List.mem_map.mp hmem
    by_cases hk : kv0.1 = q
    · rw [if_pos hk] at hfe
      have : q = name := by simpa using congrArg Prod.fst hfe
      exact absurd this hq
    · rw [if_neg hk] at hfe
      exact hfe ▸ hkv0
  rcases hl : lookupE c.entries q with _ | e0
  · rw [hl] at hm
    dsimp only at hm
    rcases List.mem_cons.mp hm with h1 | h1
    · have : name = q := by simpa using congrArg Prod.fst h1
      exact absurd this.symm hq
    · obtain ⟨e1, hm1, hrel⟩ := evict_mem2 now c name e h1
      rcases hrel with h2 | ⟨l0, he1, h2⟩
      · exact ⟨e, h2 ▸ hm1, hrr⟩
      · refine ⟨some l0, he1 ▸ hm1, ?_⟩
        rw [h2] at hrr
        dsimp [recordsOf] at hrr ⊢
        exact List.mem_of_mem_filter hrr
  · rw [hl] at hm
    rcases e0 with _ | s
    · dsimp only at hm
      exact ⟨e, hrepl _ hm, hrr⟩
    · dsimp only at hm
      exact ⟨e, hrepl _ hm, hrr⟩

/-- C2 amended: processing a response for qname never adds a record to
the cache under a name that has fewer labels than qname and shares
fewer than two trailing labels with qname (the dns.CompareDomainName
test the code actually performs); every record found under such a name
after saveDNSRR was already there before. -/
theorem c2_amended_bailiwick (now : Nat) (expire : Bool) (host qname : String)
    (drrs : List WireRR) (c : Cache) (name : String) (rr : RR)
    (h1 : countLabel name < countLabel qname)
    (h2 : compareDomainName qname name < 2)
    (hIn : recordsUnder (saveDNSRR now expire host qname drrs c).2 name rr) :
    recordsUnder c name rr := by
  induction drrs generalizing c with
  | nil => exact hIn
  | cons drr rest ih =>
    rw [saveDNSRR] at hIn
    rcases hcv : convertRR now expire drr with _ | rrk
    · rw [hcv] at hIn
      exact ih c hIn
    · rw [hcv] at hIn
      dsimp only at hIn
      by_cases hcond : countLabel rrk.name < countLabel qname ∧ compareDomainName qname rrk.name < 2
      · rw [if_pos hcond] at hIn
        exact ih c hIn
      · rw [if_neg hcond] at hIn
        dsimp only at hIn
        have hkey : rrk.name ≠ name := by
          intro hEq
          rw [hEq] at hcond
          exact hcond ⟨h1, h2⟩
        exact addRR_recordsUnder now rrk.name rrk c name hkey rr (ih _ hIn)

/-- C2 witness: a response for www.foo.example.com carrying a record
for the shallow unrelated name evil.other.org does not add records
under that name; the record found under it afterwards is the one the
cache already held. -/
theorem c2_amended_witness :
    recordsUnder ⟨1000, false, [("evil.other.org.", some [⟨"evil.other.org.", "A", "9.9.9.9", 0, none⟩])]⟩
      "evil.other.org." ⟨"evil.other.org.", "A", "9.9.9.9", 0, none⟩ :=
  c2_amended_bailiwick 0 false "h" "www.foo.example.com."
    [WireRR.a "evil.other.org." "6.6.6.6" 300]
    ⟨1000, false, [("evil.other.org.", some [⟨"evil.other.org.", "A", "9.9.9.9", 0, none⟩])]⟩
    "evil.other.org." ⟨"evil.other.org.", "A", "9.9.9.9", 0, none⟩
    (by decide) (by decide)
    ⟨some [⟨"evil.other.org.", "A", "9.9.9.9", 0, none⟩], by decide, by decide⟩

/-- C2 counterexample to the claim as stated: a record for
bar.example.com, which has fewer labels than www.foo.example.com and
is not an ancestor of it, still shares two trailing labels with it, so
saveDNSRR stores it in the cache from a response for that qname. -/
theorem c2_counterexample :
    countLabel "bar.example.com." < countLabel "www.foo.example.com." ∧
      specAncestor "bar.example.com." "www.foo.example.com." = false ∧
      lookupE ((saveDNSRR 0 false "h" "www.foo.example.com."
          [WireRR.a "bar.example.com." "1.2.3.4" 300] (newCache 1000 false)).2.entries)
        "bar.example.com."
        = some (some [⟨"bar.example.com.", "A", "1.2.3.4", 0, none⟩]) ∧
      lookupE ((newCache 1000 false).entries) "bar.example.com." = none := by
  decide

end Dnsr

namespace Dnsr

/-- The SOA test of the NameError branch holds exactly when the
question was NS and some authority record converts to an SOA. -/
theorem hasSOA_iff (now : Nat) (expire : Bool) (qtype : String) (authority : List WireRR) :
    ((qtype = "NS" &&
        authority.any fun drr =>
          match convertRR now expire drr with
          | some rr => rr.type = "SOA"
          | none => false) = true) ↔
      (qtype = "NS" ∧ ∃ drr ∈ authority, ∃ rr,
        convertRR now expire drr = some rr ∧ rr.type = "SOA") := by
  rw [Bool.and_eq_true, List.any_eq_true]
  have hp : ∀ drr : WireRR,
      ((match convertRR now expire drr with
        | some rr => decide (rr.type = "SOA")
        | none => false) = true) ↔
        ∃ rr, convertRR now expire drr = some rr ∧ rr.type = "SOA" := by
    intro drr
    rcases hcv : convertRR now expire drr with _ | rr
    · dsimp only
      simp
    · dsimp only
      simp
  constructor
  · rintro ⟨hq, drr, hmem, hP⟩
    exact ⟨by simpa using hq, drr, hmem, (hp drr).mp hP⟩
  · rintro ⟨hq, drr, hmem, hP⟩
    exact ⟨by simpa using hq, drr, hmem, (hp drr).mpr hP⟩

/-- C3: on a NameError response, if the question was NS and the
authority section holds a record converting to SOA, the classifier
falls through without touching the cache (no negative entry is
recorded for qname and NXDOMAIN is not returned at this step);
otherwise it records a negative cache entry for qname by addNX and
the exchange returns the NXDOMAIN error with nil records. -/
theorem c3_nameerror_classification (now : Nat) (expire : Bool) (qname qtype : String)
    (authority : List WireRR) (c : Cache) :
    ((qtype = "NS" ∧ ∃ drr ∈ authority, ∃ rr,
        convertRR now expire drr = some rr ∧ rr.type = "SOA") →
      rcodeCheck now expire qname qtype Rcode.nameError authority c = (none, c)) ∧
    ((¬ (qtype = "NS" ∧ ∃ drr ∈ authority, ∃ rr,
        convertRR now expire drr = some rr ∧ rr.type = "SOA")) →
      rcodeCheck now expire qname qtype Rcode.nameError authority c
        = (some (none, some Err.nxdomain), Cache.addNX now qname c)) := by
  constructor
  · intro hSOA
    rw [rcodeCheck]
    rw [if_pos ((hasSOA_iff now expire qtype authority).mpr hSOA)]
  · intro hSOA
    rw [rcodeCheck]
    rw [if_neg (fun hb => hSOA ((hasSOA_iff now expire qtype authority).mp hb))]

/-- C3 witness: with an SOA in the authority of an NS question the
classifier falls through with the cache unchanged, and with a plain
NameError for an A question it returns NXDOMAIN and records the
negative entry. -/
theorem c3_witness :
    rcodeCheck 0 false "gone.example.com." "NS" Rcode.nameError
        [WireRR.soa "example.com." "ns1.example.com." 300] (newCache 0 false)
      = (none, newCache 0 false) ∧
    rcodeCheck 0 false "gone.example.com." "A" Rcode.nameError [] (newCache 0 false)
      = (some (none, some Err.nxdomain), Cache.addNX 0 "gone.example.com." (newCache 0 false)) :=
  ⟨(c3_nameerror_classification 0 false "gone.example.com." "NS"
      [WireRR.soa "example.com." "ns1.example.com." 300] (newCache 0 false)).1
      ⟨rfl, WireRR.soa "example.com." "ns1.example.com." 300, by decide,
        ⟨"example.com.", "SOA", "ns1.example.com.", 0, none⟩, by decide, rfl⟩,
    (c3_nameerror_classification 0 false "gone.example.com." "A" [] (newCache 0 false)).2
      (by simp)⟩

end Dnsr

namespace Dnsr

/-- C4 evaluation at the failing input: resolving (www.github.com, A)
through a CNAME to github.github.io whose target resolves to one A
record returns the CNAME edge twice and no record of type A, because
the inner loop of resolveCNAMEs appends crr instead of the resolved
record; the cache entry for the query name does directly receive the
final A record. The specification and the test TestGoogleCNAME require
at least one A record in the result. -/
theorem c4_cname_append_eval :
    (resolveCNAMEsGen
        (fun _ _ c => ([⟨"github.github.io.", "A", "185.199.108.153", 0, none⟩], c))
        0 "www.github.com." "A"
        [⟨"www.github.com.", "CNAME", "github.github.io.", 0, none⟩]
        (newCache 1000 false)).1
      = [⟨"www.github.com.", "CNAME", "github.github.io.", 0, none⟩,
         ⟨"www.github.com.", "CNAME", "github.github.io.", 0, none⟩] ∧
    ((resolveCNAMEsGen
        (fun _ _ c => ([⟨"github.github.io.", "A", "185.199.108.153", 0, none⟩], c))
        0 "www.github.com." "A"
        [⟨"www.github.com.", "CNAME", "github.github.io.", 0, none⟩]
        (newCache 1000 false)).1.filter fun rr => rr.type = "A").length = 0 ∧
    lookupE ((resolveCNAMEsGen
        (fun _ _ c => ([⟨"github.github.io.", "A", "185.199.108.153", 0, none⟩], c))
        0 "www.github.com." "A"
        [⟨"www.github.com.", "CNAME", "github.github.io.", 0, none⟩]
        (newCache 1000 false)).2.entries) "www.github.com."
      = some (some [⟨"github.github.io.", "A", "185.199.108.153", 0, none⟩]) := by
  decide

/-- Oracle of one parent-walk iteration: the outcomes that the callees
of iterateParents would produce at each pname (resolve of the NS set,
the cache re-probe for the query, one exchange per nameserver host,
and the CNAME resolution applied to an answered record set). Each pair
mirrors the Go (records, error) return, none being the nil slice. -/
structure IterOracle where
  resolveNS : String → Option RRs × Option Err
  probe : String → Option RRs × Option Err
  exch : String → String → Option RRs × Option Err
  cnameRes : RRs → Option RRs × Option Err

/-- Errors that abort the whole walk when the per-parent NS resolution
fails (resolver.go line 208). -/
def fatalNS : Err → Bool
  | .nxdomain => true
  | .timeout => true
  | .deadlineExceeded => true
  | _ => false

/-- Outcome of draining the result channels of one parent iteration. -/
inductive WaitOut where
  | answered (rrs : RRs)
  | nx
  | drained (last : Option Err)
  deriving DecidableEq, Repr

/-- Wait loop of iterateParents (resolver.go lines 247 to 265) with
arrival order equal to dispatch order: the first successful exchange
answers, an NXDOMAIN error aborts, other errors are remembered and
swallowed until the dispatched hosts are drained. -/
def waitO (o : IterOracle) (pname : String) : List String → Option Err → WaitOut
  | [], last => .drained last
  | h :: hs, last =>
    match o.exch pname h with
    | (rrsO, none) => .answered (rrsO.getD [])
    | (_, some e) => if e = Err.nxdomain then .nx else waitO o pname hs (some e)

/-- Hosts dispatched in one iteration (resolver.go lines 227 to 244):
the values of the first MaxNameservers records of type NS. -/
def hostsOf (nrrs : RRs) : List String :=
  ((nrrs.filter fun nrr => nrr.type = "NS").take MaxNameservers).map fun nrr => nrr.value

/-- Loop body of Resolver.iterateParents (resolver.go lines 194 to
271) over an explicit list of successive pname values: skip the first
iteration of an NS query, stop at the root for non-TLD query names,
ask the oracle for the NS set (aborting on NXDOMAIN, Timeout and
DeadlineExceeded and skipping to the next parent on other errors),
re-probe the cache for specific query types, then dispatch exchanges
and drain them; an answered exchange goes to CNAME resolution together
with the NS records owned by qname, an NXDOMAIN aborts, and a drained
iteration returns the last error for NS queries or advances the walk.
An exhausted chain returns ErrNoResponse (line 273). -/
def iterO (o : IterOracle) (qname qtype : String) : List String → Option RRs × Option Err
  | [] => (none, some Err.noResponse)
  | pname :: rest =>
    if pname = qname ∧ qtype = "NS" then iterO o qname qtype rest
    else if pname = "." ∧ countLabel qname ≠ 1 then (none, none)
    else
      match o.resolveNS pname with
      | (_, some e) => if fatalNS e then (none, some e) else iterO o qname qtype rest
      | (nrrsO, none) =>
        let nrrs := nrrsO.getD []
        let dispatch :=
          match waitO o pname (hostsOf nrrs) none with
          | .answered rrs =>
            o.cnameRes (rrs ++ nrrs.filter fun nrr => nrr.name = qname)
          | .nx => (none, some Err.nxdomain)
          | .drained last =>
            if qtype = "NS" then (none, last) else iterO o qname qtype rest
        if nrrs.length > 0 ∧ qtype ≠ "" then
          match o.probe pname with
          | (_, some e) => (none, some e)
          | (prrsO, none) =>
            if (prrsO.getD []).length > 0 then (some (prrsO.getD []), none) else dispatch
        else dispatch

/-- Resolver.iterateParents against the oracle, walking the parent
chain of qname exactly as the Go loop does. -/
def iterateParentsOracle (o : IterOracle) (qname qtype : String) : Option RRs × Option Err :=
  iterO o qname qtype (parentChain qname)

/-- One walk iteration neither answers, nor aborts, nor stops the
walk: the NS resolution either fails with a nonfatal error, or
succeeds while the query is not an NS query, the cache re-probe stays
silent, and every dispatched exchange fails with an error other than
NXDOMAIN. -/
def quietStep (o : IterOracle) (qname qtype pname : String) : Prop :=
  (pname = qname ∧ qtype = "NS") ∨
  match o.resolveNS pname with
  | (_, some e) => fatalNS e = false
  | (nrrsO, none) =>
    qtype ≠ "NS" ∧
    ((nrrsO.getD []).length > 0 ∧ qtype ≠ "" →
      (o.probe pname).2 = none ∧ ((o.probe pname).1.getD []).length = 0) ∧
    ∀ host ∈ hostsOf (nrrsO.getD []), ∃ e, (o.exch pname host).2 = some e ∧ e ≠ Err.nxdomain

theorem waitO_drained (o : IterOracle) (pname : String) (hosts : List String)
    (hq : ∀ host ∈ hosts, ∃ e, (o.exch pname host).2 = some e ∧ e ≠ Err.nxdomain) :
    ∀ last, ∃ last2, waitO o pname hosts last = .drained last2 := by
  induction hosts with
  | nil => intro last; exact ⟨last, rfl⟩
  | cons h hs ih =>
    intro last
    obtain ⟨e, he, hne⟩ := hq h (by simp)
    rw [waitO]
    rcases hx : o.exch pname h with ⟨rrsO, errO⟩
    rw [hx] at he
    dsimp at he
    rw [he]
    dsimp only
    rw [if_neg hne]
    exact ih (fun host hm => hq host (List.mem_cons_of_mem _ hm)) (some e)

theorem iterO_quiet (o : IterOracle) (qname qtype : String)
    (hTLD : countLabel qname = 1) :
    ∀ chain : List String,
      (∀ pname ∈ chain, quietStep o qname qtype pname) →
      iterO o qname qtype chain = (none, some Err.noResponse) := by
  intro chain
  induction chain with
  | nil => intro _; rfl
  | cons pname rest ih =>
    intro hq
    have hstep := hq pname (by simp)
    have hrest := fun p hp => hq p (List.mem_cons_of_mem _ hp)
    rw [iterO]
    by_cases h1 : pname = qname ∧ qtype = "NS"
    · rw [if_pos h1]
      exact ih hrest
    · rw [if_neg h1]
      rw [if_neg (by rintro ⟨_, hne⟩; exact hne hTLD)]
      have hstep2 := Or.resolve_left hstep h1
      rcases hns : o.resolveNS pname with ⟨nrrsO, errO⟩
      rw [hns] at hstep2
      rcases errO with _ | e
      · -- NS resolution succeeded: quiet dispatch
        dsimp only at hstep2 ⊢
        obtain ⟨hqt, hprobe, hexch⟩ := hstep2
        obtain ⟨last2, hdr⟩ := waitO_drained o pname (hostsOf (nrrsO.getD [])) hexch none
        rw [hdr]
        dsimp only
        rw [if_neg hqt]
        by_cases h2 : (nrrsO.getD []).length > 0 ∧ qtype ≠ ""
        · rw [if_pos h2]
          obtain ⟨hperr, hplen⟩ := hprobe h2
          rcases hpr : o.probe pname with ⟨prrsO, perrO⟩
          rw [hpr] at hperr hplen
          dsimp at hperr
          rw [hperr]
          dsimp only
          dsimp at hplen
          rw [if_neg (by omega)]
          exact ih hrest
        · rw [if_neg h2]
          exact ih hrest
      · -- NS resolution failed with a nonfatal error
        dsimp only at hstep2 ⊢
        rw [if_neg (by rw [hstep2]; simp)]
        exact ih hrest

/-- C5: when the parent-chain walk of a TLD query runs through the
whole chain with every iteration quiet (no exchange produced a
response, no NXDOMAIN, Timeout or DeadlineExceeded was raised, no
iteration stopped the walk), iterateParents returns nil records and
the ErrNoResponse error, which resolve passes through to its caller. -/
theorem c5_walk_exhausted_no_response (o : IterOracle) (qname qtype : String)
    (hTLD : countLabel qname = 1)
    (hquiet : ∀ pname ∈ parentChain qname, quietStep o qname qtype pname) :
    iterateParentsOracle o qname qtype = (none, some Err.noResponse) :=
  iterO_quiet o qname qtype hTLD (parentChain qname) hquiet

/-- C5 witness: a walk for (com, A) in which the NS resolution of
every parent fails with ErrNoResponse ends with ErrNoResponse. -/
theorem c5_witness :
    iterateParentsOracle
      ⟨fun _ => (none, some Err.noResponse), fun _ => (none, none),
        fun _ _ => (none, some Err.noResponse), fun _ => (none, none)⟩
      "com." "A" = (none, some Err.noResponse) :=
  c5_walk_exhausted_no_response
    ⟨fun _ => (none, some Err.noResponse), fun _ => (none, none),
      fun _ _ => (none, some Err.noResponse), fun _ => (none, none)⟩
    "com." "A" (by decide) (fun _ _ => Or.inr rfl)

end Dnsr

namespace Dnsr

/-- The Go pair (records, error) returned by the engine functions;
none is the nil slice respectively the nil error. -/
abbrev Res := Option RRs × Option Err

/-- Parsed DNS response message as the engine consumes it: the RCODE
and the answer, authority and additional sections. -/
structure Msg where
  rcode : Rcode
  answer : List WireRR
  ns : List WireRR
  extra : List WireRR

/-- Static environment of a run of the engine: the network as a map
from (ip, qname, qtype) to a response or an error (covering dialing,
deadline and cancellation failures as error values), the observation
instant, the expiry flag of the resolver and the process-wide root
cache. -/
structure Env where
  net : String → String → String → Except Err Msg
  now : Nat
  expire : Bool
  rootC : Cache

/-- Outcome of draining the parallel exchanges of one walk step. -/
inductive DispatchOut where
  | answered (res : Res)
  | drained (last : Option Err)

mutual

/-- Resolver.exchangeIP (resolver.go lines 308 to 422) with the wire
exchange (deadline computation, dialing, UDP query, TCP retry and
cancellation check, lines 317 to 370) abstracted into the network of
the environment: classify the RCODE, save the received records through
the bailiwick filter, and for NS questions harvest missing glue by
recursing on each returned NS target at depth plus one. -/
def exchangeIPM (env : Env) (depth : Nat) (host ip qname qtype : String) (c : Cache) :
    Res × Cache :=
  match env.net ip qname qtype with
  | .error e => ((none, some e), c)
  | .ok rmsg =>
    match rcodeCheck env.now env.expire qname qtype rmsg.rcode rmsg.ns c with
    | (some ret, c1) => (ret, c1)
    | (none, c1) =>
      match saveDNSRR env.now env.expire host qname (rmsg.answer ++ rmsg.ns ++ rmsg.extra) c1 with
      | (rrs, c2) =>
        if h : qtype = "NS" then
          match glueLoopM env depth host ip rrs c2 with
          | (gathered, c3) => ((some (rrs ++ gathered), none), c3)
        else ((some rrs, none), c2)
termination_by ((if qtype = "NS" then 2 else 0), 1)
decreasing_by
  all_goals simp_wf
  all_goals simp only [h, if_pos]
  all_goals exact Prod.Lex.left _ _ (by omega)

/-- Glue harvest loop of exchangeIP (resolver.go lines 399 to 419):
for each NS record of the saved set, look its target address up in the
cache; on NXDOMAIN skip it, on another cache error stop, on a missing
address exchange (target, A) against the same ip at depth plus one,
stopping on error; append the found addresses. -/
def glueLoopM (env : Env) (depth : Nat) (host ip : String) (rrs : RRs) (c : Cache) :
    RRs × Cache :=
  match rrs with
  | [] => ([], c)
  | rr :: rest =>
    if rr.type ≠ "NS" then glueLoopM env depth host ip rest c
    else
      match cacheGetR env.now c env.rootC rr.value "A" with
      | (_, some Err.nxdomain) => glueLoopM env depth host ip rest c
      | (_, some _) => ([], c)
      | (arrsO, none) =>
        if (arrsO.getD []).length = 0 then
          match exchangeIPM env (depth + 1) host ip rr.value "A" c with
          | ((_, some _), c1) => ([], c1)
          | ((arrs2O, none), c1) =>
            match glueLoopM env depth host ip rest c1 with
            | (g, c2) => (arrs2O.getD [] ++ g, c2)
        else
          match glueLoopM env depth host ip rest c with
          | (g, c2) => (arrsO.getD [] ++ g, c2)
termination_by (1, rrs.length)
decreasing_by
  all_goals simp_wf
  all_goals first
    | exact Prod.Lex.left _ _ (by omega)
    | exact Prod.Lex.right _ (by omega)


end

mutual

/-- Resolver.resolve (resolver.go lines 170 to 187): increment the
depth and fail with ErrMaxRecursion beyond MaxRecursion, return a
cache hit or a cache error, and iterate the parents otherwise. The
function is total by well-founded recursion on MaxRecursion minus the
depth (paired with the loop lists of the inner functions). -/
def resolveM (env : Env) (depth : Nat) (qname qtype : String) (c : Cache) : Res × Cache :=
  if h : depth + 1 > MaxRecursion then ((none, some Err.maxRecursion), c)
  else
    match cacheGetR env.now c env.rootC qname qtype with
    | (_, some e) => ((none, some e), c)
    | (rrsO, none) =>
      if (rrsO.getD []).length > 0 then ((rrsO, none), c)
      else iterateParentsM env (depth + 1) qname qtype c
termination_by ((MaxRecursion + 2 - depth) * 16, 0)
decreasing_by
  all_goals simp_wf
  all_goals first
    | exact Prod.Lex.right _ (by omega)
    | exact Prod.Lex.left _ _ (by omega)

/-- Resolver.iterateParents (resolver.go lines 189 to 274): walk the
parent chain of qname. -/
def iterateParentsM (env : Env) (depth : Nat) (qname qtype : String) (c : Cache) :
    Res × Cache :=
  iterLoopM env depth qname qtype (parentChain qname) c
termination_by ((MaxRecursion + 2 - depth) * 16 + 12, 0)
decreasing_by
  all_goals simp_wf
  all_goals first
    | exact Prod.Lex.right _ (by omega)
    | exact Prod.Lex.left _ _ (by omega)

/-- Loop body of iterateParents over the successive pname values, as
in the oracle model iterO but with the recursive callees run for real
and the cache threaded through. -/
def iterLoopM (env : Env) (depth : Nat) (qname qtype : String)
    (chain : List String) (c : Cache) : Res × Cache :=
  match chain with
  | [] => ((none, some Err.noResponse), c)
  | pname :: rest =>
    if pname = qname ∧ qtype = "NS" then iterLoopM env depth qname qtype rest c
    else if pname = "." ∧ countLabel qname ≠ 1 then ((none, none), c)
    else
      match resolveM env depth pname "NS" c with
      | ((_, some e), c1) =>
        if fatalNS e then ((none, some e), c1) else iterLoopM env depth qname qtype rest c1
      | ((nrrsO, none), c1) =>
        let nrrs := nrrsO.getD []
        let probeHit : Option Res :=
          if nrrs.length > 0 ∧ qtype ≠ "" then
            match cacheGetR env.now c1 env.rootC qname qtype with
            | (_, some e) => some (none, some e)
            | (prrsO, none) =>
              if (prrsO.getD []).length > 0 then some (some (prrsO.getD []), none) else none
          else none
        match probeHit with
        | some res => (res, c1)
        | none =>
          match dispatchLoopM env depth qname qtype nrrs (hostsOf nrrs) none c1 with
          | (.answered res, c2) => (res, c2)
          | (.drained last, c2) =>
            if qtype = "NS" then ((none, last), c2)
            else iterLoopM env depth qname qtype rest c2
termination_by ((MaxRecursion + 2 - depth) * 16 + 10, chain.length)
decreasing_by
  all_goals simp_wf
  all_goals first
    | exact Prod.Lex.right _ (by omega)
    | exact Prod.Lex.left _ _ (by omega)

/-- Dispatch and wait of one walk step (resolver.go lines 226 to 265),
sequentialized: exchanges run in dispatch order, the first success is
answered and appends the NS records owned by qname before resolving
CNAMEs, an NXDOMAIN aborts, other errors are remembered and the rest
of the hosts are tried. -/
def dispatchLoopM (env : Env) (depth : Nat) (qname qtype : String) (nrrs : RRs)
    (hosts : List String) (lastErr : Option Err) (c : Cache) : DispatchOut × Cache :=
  match hosts with
  | [] => (.drained lastErr, c)
  | host :: hs =>
    match exchangeM env depth host qname qtype c with
    | ((rrsO, none), c1) =>
      match cnameLoopM env depth qname qtype
          (rrsO.getD [] ++ nrrs.filter fun nrr => nrr.name = qname) c1 with
      | (lst, c2) => (.answered (some lst, none), c2)
    | ((_, some e), c1) =>
      if e = Err.nxdomain then (.answered (none, some e), c1)
      else dispatchLoopM env depth qname qtype nrrs hs (some e) c1
termination_by ((MaxRecursion + 2 - depth) * 16 + 8, hosts.length)
decreasing_by
  all_goals simp_wf
  all_goals first
    | exact Prod.Lex.right _ (by omega)
    | exact Prod.Lex.left _ _ (by omega)

/-- Resolver.resolveCNAMEs (resolver.go lines 424 to 439) with the
recursive resolve run for real; the emitted list and cache writes
follow cnameInner exactly (including the append of crr). -/
def cnameLoopM (env : Env) (depth : Nat) (qname qtype : String) (crrs : RRs) (c : Cache) :
    RRs × Cache :=
  match crrs with
  | [] => ([], c)
  | crr :: rest =>
    if crr.type ≠ "CNAME" ∨ crr.name ≠ qname then
      match cnameLoopM env depth qname qtype rest c with
      | (l, c2) => (crr :: l, c2)
    else
      match resolveM env depth crr.value qtype c with
      | ((resO, _), c1) =>
        match cnameInner env.now qname crr (resO.getD []) c1 with
        | (emitted, c2) =>
          match cnameLoopM env depth qname qtype rest c2 with
          | (l, c3) => (crr :: (emitted ++ l), c3)
termination_by ((MaxRecursion + 2 - depth) * 16 + 6, crrs.length)
decreasing_by
  all_goals simp_wf
  all_goals first
    | exact Prod.Lex.right _ (by omega)
    | exact Prod.Lex.left _ _ (by omega)

/-- Resolver.exchange (resolver.go lines 276 to 304): resolve the A
records of the nameserver host, then try its addresses in order. -/
def exchangeM (env : Env) (depth : Nat) (host qname qtype : String) (c : Cache) :
    Res × Cache :=
  match resolveM env depth host "A" c with
  | ((_, some e), c1) => ((none, some e), c1)
  | ((arrsO, none), c1) => ipLoopM env depth host qname qtype (arrsO.getD []) 0 c1
termination_by ((MaxRecursion + 2 - depth) * 16 + 4, 0)
decreasing_by
  all_goals simp_wf
  all_goals first
    | exact Prod.Lex.right _ (by omega)
    | exact Prod.Lex.left _ _ (by omega)

/-- Address loop of Resolver.exchange: skip records that are not A,
fail with ErrMaxIPs beyond MaxIPs addresses, return on success,
NXDOMAIN or Timeout, move to the next address otherwise, and fail with
ErrNoARecords when the addresses run out. -/
def ipLoopM (env : Env) (depth : Nat) (host qname qtype : String) (arrs : RRs)
    (count : Nat) (c : Cache) : Res × Cache :=
  match arrs with
  | [] => ((none, some Err.noARecords), c)
  | arr :: rest =>
    if arr.type ≠ "A" then ipLoopM env depth host qname qtype rest count c
    else if count + 1 > MaxIPs then ((none, some Err.maxIPs), c)
    else
      match exchangeIPM env depth host arr.value qname qtype c with
      | ((rrsO, err), c1) =>
        if err = none ∨ err = some Err.nxdomain ∨ err = some Err.timeout then ((rrsO, err), c1)
        else ipLoopM env depth host qname qtype rest (count + 1) c1
termination_by ((MaxRecursion + 2 - depth) * 16 + 2, arrs.length)
decreasing_by
  all_goals simp_wf
  all_goals first
    | exact Prod.Lex.right _ (by omega)
    | exact Prod.Lex.left _ _ (by omega)


end

end Dnsr

namespace Dnsr

/-- C6: resolve increments the depth first and, as soon as the
incremented depth exceeds MaxRecursion (10 by default), returns nil
records and the ErrMaxRecursion error with the cache unchanged, before
consulting the cache or the network: the equation holds for every
environment and every cache, so neither is inspected. Consequently the
nesting depth of recursive resolve calls is bounded by MaxRecursion,
which is what makes the embedded resolveM total by well-founded
recursion on MaxRecursion minus the depth. -/
theorem c6_max_recursion_guard (env : Env) (depth : Nat) (qname qtype : String) (c : Cache)
    (h : MaxRecursion ≤ depth) :
    resolveM env depth qname qtype c = ((none, some Err.maxRecursion), c) := by
  unfold resolveM
  rw [dif_pos (by omega)]

/-- C6 witness: at depth MaxRecursion the guard fires for a concrete
environment whose network always fails, with a fresh cache. -/
theorem c6_witness :
    resolveM ⟨fun _ _ _ => Except.error (Err.netErr "unreachable"), 0, false, newCache 0 false⟩
        10 "example.com." "A" (newCache 0 false)
      = ((none, some Err.maxRecursion), newCache 0 false) :=
  c6_max_recursion_guard
    ⟨fun _ _ _ => Except.error (Err.netErr "unreachable"), 0, false, newCache 0 false⟩
    10 "example.com." "A" (newCache 0 false) (by decide)

end Dnsr
